import Mathlib

set_option maxRecDepth 40000
set_option maxHeartbeats 2000000

/-!
Verification of the XACML-LAB test-generation and suite-minimization pipeline.

The development shallowly embeds the Python sources:
  * `testcase.py` (namespace `Testcase`): attribute-domain construction,
    Cartesian-product candidate generation, rule coverage, fitness and the
    elitist genetic algorithm;
  * `xacml_testcase_ga.py` (namespace `XGa`): the one-candidate-per-rule DFS
    generator, `select_best`-based (non-elitist) genetic algorithm;
  * `xacml_test_optimization.py` (namespace `XOpt`): its `rule_coverage`
    variant (the only function in that file whose text differs from
    `xacml_testcase_ga.py`; `fitness`, `crossover`, `mutate`, `select_best`
    and `genetic_algorithm` there are line-identical to `XGa`'s and are
    embedded once, in `XGa`).

Conventions of the embedding:
  * Python `set` values are modelled as insertion-ordered duplicate-free
    lists (for domains and dict-like association lists) or as `Finset String`
    (for `covers` sets and the rule-id set), which is faithful for the
    membership/cardinality facts used here.
  * Python `float` arithmetic is modelled over `ℚ`.  Every claim proved about
    coverage or fitness is an order/equality fact whose transfer to IEEE
    doubles only uses monotonicity of rounding and exactness of small values.
  * The process-wide `random` source is modelled as an arbitrary stream
    `g : ℕ → ℕ` of raw draws consumed left to right together with a cursor.
    `random.randint(lo, hi)` maps a draw into `[lo, hi]` and faults
    (`none`, Python `ValueError`) when `hi < lo`; `random.random() < rate`
    maps one draw to a rational in `[0, 1)`; `random.sample(l, 2)` consumes
    two draws and faults when `l` has fewer than two elements.  The claims
    quantify over every random sequence, so only the fault conditions and
    the consumption pattern matter, not the distribution.
  * Fallible Python code (faults such as `ZeroDivisionError`, `ValueError`,
    `IndexError`) is embedded with `Option`: `none` is a fault.
-/

/-- `Rule` from `testcase.py`: identifier, effect, and the ordered list of
`(attribute, category, value)` condition triples.  The dict-shaped rules of
`xacml_testcase_ga.py` carry exactly the same three fields and are embedded
with the same structure. -/
structure Rule where
  id : String
  effect : String
  conditions : List (String × String × String)
deriving DecidableEq

/-- `TestCase` from `testcase.py` / `xacml_testcase_ga.py`: id, the
`attr -> (value, category)` dict (insertion-ordered association list of
`(attr, value, category)` triples) and the set of covered rule ids. -/
structure TestCase where
  id : ℕ
  attributes : List (String × String × String)
  covers : Finset String
deriving DecidableEq

/-- One attribute's entry of the `domains` dict of
`build_attribute_domains`: the registered category and the value set
(Python `set`, modelled as an insertion-ordered duplicate-free list). -/
structure AttrDomain where
  category : String
  values : List String
deriving DecidableEq

/-- Python `set.add`: insert the value if it is not already present. -/
def setAdd (v : String) (l : List String) : List String :=
  if v ∈ l then l else l ++ [v]

/-- One iteration of the inner condition loop of `build_attribute_domains`:
`domains.setdefault(attr, {"category": cat, "values": set()})` followed by
`domains[attr]["values"].add(value)`.  The category of an existing entry is
kept (first writer wins). -/
def addCondition : List (String × AttrDomain) → String × String × String →
    List (String × AttrDomain)
  | [], (attr, cat, value) => [(attr, ⟨cat, [value]⟩)]
  | (a, d) :: rest, (attr, cat, value) =>
    if a = attr then (a, ⟨d.category, setAdd value d.values⟩) :: rest
    else (a, d) :: addCondition rest (attr, cat, value)

/-- `build_attribute_domains` from `testcase.py`: fold every condition of
every rule through `addCondition`, then add the sentinel `"UNKNOWN"` to every
attribute's value set. -/
def build_attribute_domains (rules : List Rule) : List (String × AttrDomain) :=
  let domains := rules.foldl (fun ds r => r.conditions.foldl addCondition ds) []
  domains.map (fun ad => (ad.1, ⟨ad.2.category, setAdd ("UNKNOWN") ad.2.values⟩))

/-- `itertools.product(*value_sets)`: Cartesian product of a list of value
lists, in lexicographic order with the rightmost set varying fastest.  The
product of zero lists is the singleton list holding the empty tuple. -/
def productLists : List (List String) → List (List String)
  | [] => [[]]
  | vs :: rest => vs.flatMap (fun v => (productLists rest).map (v :: ·))

/-- The per-combination attribute dict of `generate_test_cases`:
`attributes[attr] = (value, domains[attr]["category"])` for
`attr, value in zip(attrs, combination)` (keys are distinct, so the dict is
the zip in order). -/
def mkAttributes (domains : List (String × AttrDomain)) (combo : List String) :
    List (String × String × String) :=
  (domains.zip combo).map (fun p => (p.1.1, p.2, p.1.2.category))

/-- The rule-coverage check of `generate_test_cases`:
`all(attributes.get(a, ("", ""))[0] == v for a, _, v in rule.conditions)`. -/
def ruleMatches (attributes : List (String × String × String)) (r : Rule) : Bool :=
  r.conditions.all (fun c => ((attributes.lookup c.1).getD ("", "")).1 == c.2.2)

/-- `generate_test_cases` from `testcase.py`: enumerate the Cartesian product
of the attribute domains, assign ids from 1 in enumeration order, and label
each vector with the set of rules all of whose conditions it matches. -/
def generate_test_cases (rules : List Rule) : List TestCase :=
  let domains := build_attribute_domains rules
  let combos := productLists (domains.map (fun ad => ad.2.values))
  (combos.enumFrom 1).map (fun ic =>
    let attributes := mkAttributes domains ic.2
    { id := ic.1, attributes := attributes,
      covers := ((rules.filter (fun r => ruleMatches attributes r)).map Rule.id).toFinset })

/-- The union `covered` accumulated by both `rule_coverage` variants:
`for tc in test_cases: covered |= tc.covers`. -/
def coveredSet (test_cases : List TestCase) : Finset String :=
  test_cases.foldl (fun s tc => s ∪ tc.covers) ∅

namespace Testcase

/-- `rule_coverage` from `testcase.py`:
`len(covered) / len(all_rules)` with no guard; division by zero
(`all_rules` empty) is a fault. -/
def rule_coverage (test_cases : List TestCase) (all_rules : Finset String) :
    Option ℚ :=
  if all_rules.card = 0 then none
  else some (((coveredSet test_cases).card : ℚ) / (all_rules.card : ℚ))

end Testcase

namespace XOpt

/-- `rule_coverage` from `xacml_test_optimization.py`: returns `0.0` for an
empty collection before touching the rule set, otherwise divides by
`len(all_rules)` (a fault when that is zero). -/
def rule_coverage (selected_tests : List TestCase) (all_rules : Finset String) :
    Option ℚ :=
  if selected_tests.isEmpty then some 0
  else if all_rules.card = 0 then none
  else some (((coveredSet selected_tests).card : ℚ) / (all_rules.card : ℚ))

end XOpt

/-- A run of the process-wide random source: the `k`-th raw draw is `g k`.
All claims about the optimizer quantify over every such stream. -/
def RandF : Type := ℕ → ℕ

/-- `random.randint(lo, hi)`: one draw mapped into `[lo, hi]`; Python raises
`ValueError` when the range is empty (`hi < lo`). -/
def randint (g : RandF) (lo hi k : ℕ) : Option (ℕ × ℕ) :=
  if hi < lo then none else some (lo + g k % (hi + 1 - lo), k + 1)

/-- `random.random() < rate`: one draw mapped to a rational in `[0, 1)` and
compared with the rate. -/
def randBelow (g : RandF) (rate : ℚ) (k : ℕ) : Bool × ℕ :=
  (decide (((g k % 100 : ℕ) : ℚ) / 100 < rate), k + 1)

/-- `random.sample(l, 2)`: two distinct random elements; Python raises
`ValueError` when the population has fewer than two elements. -/
def sample2 (g : RandF) (l : List (List ℕ)) (k : ℕ) :
    Option (List ℕ × List ℕ × ℕ) :=
  if l.length < 2 then none
  else
    let i := g k % l.length
    let j0 := g (k + 1) % (l.length - 1)
    let j := if i ≤ j0 then j0 + 1 else j0
    some (l.getD i [], l.getD j [], k + 2)

/-- `random_individual` (`xacml_testcase_ga.py`, and the inner comprehension
of `testcase.py`'s initial population): `n` draws of `randint(0, 1)`. -/
def random_individual (g : RandF) : ℕ → ℕ → List ℕ × ℕ
  | 0, k => ([], k)
  | n + 1, k =>
    let b := g k % 2
    let (rest, k') := random_individual g n (k + 1)
    (b :: rest, k')

/-- The initial population of both genetic algorithms: `popSize` random
individuals of genome length `n`. -/
def initPopulation (g : RandF) : ℕ → ℕ → ℕ → List (List ℕ) × ℕ
  | 0, _, k => ([], k)
  | ps + 1, n, k =>
    let (ind, k1) := random_individual g n k
    let (rest, k2) := initPopulation g ps n k1
    (ind :: rest, k2)

/-- Single-point crossover (`crossover` in both `xacml` files, inlined in
`testcase.py`): `point = random.randint(1, len(p1) - 1)` then
`p1[:point] + p2[point:]`.  For `len(p1) ≤ 1` the `randint` range is empty
and the call faults. -/
def crossover (g : RandF) (p1 p2 : List ℕ) (k : ℕ) : Option (List ℕ × ℕ) :=
  (randint g 1 (p1.length - 1) k).map (fun pk => (p1.take pk.1 ++ p2.drop pk.1, pk.2))

/-- Per-bit mutation (`mutate` in the `xacml` files, inlined in
`testcase.py`): flip each bit `b` to `1 - b` with the given rate, one draw
per bit, left to right. -/
def mutate (g : RandF) (rate : ℚ) : List ℕ → ℕ → List ℕ × ℕ
  | [], k => ([], k)
  | b :: bs, k =>
    let fl := randBelow g rate k
    let (rest, k2) := mutate g rate bs fl.2
    ((if fl.1 then 1 - b else b) :: rest, k2)

namespace Testcase

/-- The selection `[tc for bit, tc in zip(individual, test_cases) if bit]`
of `testcase.py`'s `fitness` (truthiness: any non-zero bit selects). -/
def selectedTCs (individual : List ℕ) (test_cases : List TestCase) :
    List TestCase :=
  ((individual.zip test_cases).filter (fun bt => bt.1 != 0)).map Prod.snd

/-- `fitness` from `testcase.py`: `0` for an empty selection, otherwise
`alpha * coverage - beta * len(selected) / len(test_cases)`; the coverage
division faults when `all_rules` is empty. -/
def fitness (individual : List ℕ) (test_cases : List TestCase)
    (all_rules : Finset String) (alpha beta : ℚ) : Option ℚ :=
  let selected := selectedTCs individual test_cases
  if selected.isEmpty then some 0
  else (rule_coverage selected all_rules).map (fun cov =>
    alpha * cov - beta * ((selected.length : ℚ) / (test_cases.length : ℚ)))

/-- Total ℚ-valued restatement of `fitness` used on the proof side; it agrees
with `fitness` (at the default weights 0.8/0.2) whenever the rule set is
non-empty (`fitness_eq_fitQ`). -/
def fitQ (individual : List ℕ) (test_cases : List TestCase)
    (all_rules : Finset String) : ℚ :=
  let selected := selectedTCs individual test_cases
  if selected.isEmpty then 0
  else (4 / 5) * (((coveredSet selected).card : ℚ) / (all_rules.card : ℚ)) -
    (1 / 5) * ((selected.length : ℚ) / (test_cases.length : ℚ))

/-- The key computation of `sorted(population, key=..., reverse=True)`:
`sorted` evaluates the key on every element, so one faulting `fitness`
call faults the whole sort. -/
def computeKeys (test_cases : List TestCase) (all_rules : Finset String) :
    List (List ℕ) → Option (List (List ℕ × ℚ))
  | [] => some []
  | ind :: rest => do
    let f ← fitness ind test_cases all_rules (4 / 5) (1 / 5)
    let tl ← computeKeys test_cases all_rules rest
    pure ((ind, f) :: tl)

/-- `sorted(population, key=lambda ind: fitness(...), reverse=True)`:
a stable sort, descending by key (Python's `sorted` is stable; any stable
sort computes the same list, here realised by `List.mergeSort` on the
decorated list). -/
def sortByFitness (test_cases : List TestCase) (all_rules : Finset String)
    (pop : List (List ℕ)) : Option (List (List ℕ)) :=
  (computeKeys test_cases all_rules pop).map (fun keyed =>
    (keyed.mergeSort (fun a b => decide (b.2 ≤ a.2))).map Prod.fst)

/-- The `while len(next_gen) < pop_size` body of `testcase.py`'s
`genetic_algorithm`, unrolled as "append `n` children": sample two distinct
parents from the ten fittest, single-point crossover, then per-bit mutation
at rate 0.05. -/
def nextGenChildren (g : RandF) (top10 : List (List ℕ)) :
    ℕ → ℕ → Option (List (List ℕ) × ℕ)
  | 0, k => some ([], k)
  | n + 1, k => do
    let (p1, p2, k1) ← sample2 g top10 k
    let (child, k2) ← crossover g p1 p2 k1
    let mk := mutate g (1 / 20) child k2
    let (rest, k4) ← nextGenChildren g top10 n mk.2
    pure (mk.1 :: rest, k4)

/-- One generation of `testcase.py`'s `genetic_algorithm`: sort by fitness
descending, keep the top two (elitism), refill to `popSize` with mutated
crossover children of parents sampled from the top ten. -/
def gaStep (g : RandF) (test_cases : List TestCase) (all_rules : Finset String)
    (popSize : ℕ) (pop : List (List ℕ)) (k : ℕ) :
    Option (List (List ℕ) × ℕ) := do
  let spop ← sortByFitness test_cases all_rules pop
  let elite := spop.take 2
  let (children, k') ← nextGenChildren g (spop.take 10) (popSize - elite.length) k
  pure (elite ++ children, k')

/-- The `for _ in range(generations)` loop of `testcase.py`'s
`genetic_algorithm`. -/
def gaLoop (g : RandF) (test_cases : List TestCase) (all_rules : Finset String)
    (popSize : ℕ) : ℕ → List (List ℕ) → ℕ → Option (List (List ℕ) × ℕ)
  | 0, pop, k => some (pop, k)
  | n + 1, pop, k => do
    let (pop', k') ← gaStep g test_cases all_rules popSize pop k
    gaLoop g test_cases all_rules popSize n pop' k'

/-- `genetic_algorithm` from `testcase.py` (defaults `pop_size=20`,
`generations=50`): random initial population, the generations loop, then
`population[0]` (an `IndexError`, hence `none`, on an empty population). -/
def genetic_algorithm (g : RandF) (test_cases : List TestCase)
    (all_rules : Finset String) (popSize generations : ℕ) : Option (List ℕ) := do
  let ik := initPopulation g popSize test_cases.length 0
  let (popF, _) ← gaLoop g test_cases all_rules popSize generations ik.1 ik.2
  popF.head?

end Testcase

namespace XGa

/-- The selection `[tc for bit, tc in zip(individual, test_cases) if bit == 1]`
of `fitness` in `xacml_testcase_ga.py` / `xacml_test_optimization.py`. -/
def selectedTCs (individual : List ℕ) (test_cases : List TestCase) :
    List TestCase :=
  ((individual.zip test_cases).filter (fun bt => bt.1 == 1)).map Prod.snd

/-- `fitness` from `xacml_testcase_ga.py` (line-identical in
`xacml_test_optimization.py`): `0` for an empty selection, otherwise
`alpha * coverage - beta * size_penalty`.  Inside `fitness` the collection
passed to `rule_coverage` is non-empty, so the two files' `rule_coverage`
variants agree here; the division faults when `all_rules` is empty. -/
def fitness (individual : List ℕ) (test_cases : List TestCase)
    (all_rules : Finset String) (alpha beta : ℚ) : Option ℚ :=
  let selected := selectedTCs individual test_cases
  if selected.isEmpty then some 0
  else if all_rules.card = 0 then none
  else some (alpha * (((coveredSet selected).card : ℚ) / (all_rules.card : ℚ)) -
    beta * ((selected.length : ℚ) / (test_cases.length : ℚ)))

/-- Total ℚ-valued restatement of `XGa.fitness` at the default weights,
agreeing with it whenever the rule set is non-empty. -/
def fitQ (individual : List ℕ) (test_cases : List TestCase)
    (all_rules : Finset String) : ℚ :=
  let selected := selectedTCs individual test_cases
  if selected.isEmpty then 0
  else (4 / 5) * (((coveredSet selected).card : ℚ) / (all_rules.card : ℚ)) -
    (1 / 5) * ((selected.length : ℚ) / (test_cases.length : ℚ))

/-- The running-best loop inside Python's `max(population, key=...)`:
the current best is replaced only on a strictly greater key, so the first
maximal element wins. -/
def maxLoop (test_cases : List TestCase) (all_rules : Finset String) :
    List (List ℕ) → List ℕ × ℚ → Option (List ℕ)
  | [], cur => some cur.1
  | ind :: rest, cur => do
    let f ← fitness ind test_cases all_rules (4 / 5) (1 / 5)
    maxLoop test_cases all_rules rest (if cur.2 < f then (ind, f) else cur)

/-- `select_best` from `xacml_testcase_ga.py`:
`max(population, key=lambda ind: fitness(ind, test_cases, all_rules))`.
Python's `max` raises on an empty population and evaluates the key on every
element (a faulting key faults the call). -/
def select_best (test_cases : List TestCase) (all_rules : Finset String)
    (population : List (List ℕ)) : Option (List ℕ) :=
  match population with
  | [] => none
  | p :: rest => do
    let f ← fitness p test_cases all_rules (4 / 5) (1 / 5)
    maxLoop test_cases all_rules rest (p, f)

/-- The `for _ in range(pop_size)` child loop of `genetic_algorithm` in
`xacml_testcase_ga.py`: two (identical, since `max` is deterministic)
`select_best` parents, crossover, then mutation at rate 0.1. -/
def newPopulation (g : RandF) (test_cases : List TestCase)
    (all_rules : Finset String) (pop : List (List ℕ)) :
    ℕ → ℕ → Option (List (List ℕ) × ℕ)
  | 0, k => some ([], k)
  | n + 1, k => do
    let p1 ← select_best test_cases all_rules pop
    let p2 ← select_best test_cases all_rules pop
    let (child, k1) ← crossover g p1 p2 k
    let mk := mutate g (1 / 10) child k1
    let (rest, k3) ← newPopulation g test_cases all_rules pop n mk.2
    pure (mk.1 :: rest, k3)

/-- The generations loop of `genetic_algorithm` in `xacml_testcase_ga.py`:
each generation replaces the whole population by `pop_size` mutated
crossover children of the current best (no elitism). -/
def gaLoop (g : RandF) (test_cases : List TestCase) (all_rules : Finset String)
    (popSize : ℕ) : ℕ → List (List ℕ) → ℕ → Option (List (List ℕ) × ℕ)
  | 0, pop, k => some (pop, k)
  | n + 1, pop, k => do
    let (pop', k') ← newPopulation g test_cases all_rules pop popSize k
    gaLoop g test_cases all_rules popSize n pop' k'

/-- The population left after the generations loop of `genetic_algorithm`
(`xacml_testcase_ga.py`, line-identical in `xacml_test_optimization.py`),
together with the random cursor. -/
def finalPopulation (g : RandF) (test_cases : List TestCase)
    (all_rules : Finset String) (popSize generations : ℕ) :
    Option (List (List ℕ) × ℕ) :=
  let ik := initPopulation g popSize test_cases.length 0
  gaLoop g test_cases all_rules popSize generations ik.1 ik.2

/-- `genetic_algorithm` from `xacml_testcase_ga.py` (defaults `pop_size=10`,
`generations=30`): the generations loop followed by
`select_best(population, ...)` over the final population. -/
def genetic_algorithm (g : RandF) (test_cases : List TestCase)
    (all_rules : Finset String) (popSize generations : ℕ) : Option (List ℕ) := do
  let (popF, _) ← finalPopulation g test_cases all_rules popSize generations
  select_best test_cases all_rules popF

/-- The dict write `attributes[cond["attr"]] = (cond["value"],
cond["category"])`: replace in place if the key exists (later conditions on
the same attribute overwrite earlier values), otherwise append. -/
def dictInsert : List (String × String × String) → String → String × String →
    List (String × String × String)
  | [], a, vc => [(a, vc.1, vc.2)]
  | (a', v', c') :: rest, a, vc =>
    if a' = a then (a', vc.1, vc.2) :: rest
    else (a', v', c') :: dictInsert rest a vc

/-- The per-rule attribute dict built by `dfs_generate_test_cases`. -/
def ruleAttributes (r : Rule) : List (String × String × String) :=
  r.conditions.foldl (fun m c => dictInsert m c.1 (c.2.2, c.2.1)) []

/-- The rule loop of `dfs_generate_test_cases` with the running `tc_id`,
ending with the hard-coded NotApplicable case. -/
def dfsAux : ℕ → List Rule → List TestCase
  | tcId, [] => [⟨tcId, [("role", "unknown", "subject")], ∅⟩]
  | tcId, r :: rs => ⟨tcId, ruleAttributes r, {r.id}⟩ :: dfsAux (tcId + 1) rs

/-- `dfs_generate_test_cases` from `xacml_testcase_ga.py`: one test case per
rule, labelled with exactly that rule's id, then one extra case with
`{"role": ("unknown", "subject")}` and an empty covers set. -/
def dfs_generate_test_cases (rules : List Rule) : List TestCase :=
  dfsAux 1 rules

end XGa

namespace Testcase

/-- Proof-side restatement of `sortByFitness` under a total fitness: decorate
with `fitQ`, stable-sort descending, strip the keys. -/
def sortQ (test_cases : List TestCase) (all_rules : Finset String)
    (pop : List (List ℕ)) : List (List ℕ) :=
  ((pop.map (fun x => (x, fitQ x test_cases all_rules))).mergeSort
    (fun a b => decide (b.2 ≤ a.2))).map Prod.fst

end Testcase

namespace XGa

/-- Proof-side restatement of the running-best loop of `select_best` under a
total fitness: keep the current best unless a strictly larger key appears. -/
def maxBy (f : List ℕ → ℚ) (b : List ℕ) (t : List (List ℕ)) : List ℕ :=
  t.foldl (fun best x => if f best < f x then x else best) b

end XGa

/-- The values attached to attribute `a` by a flat condition list, in order:
the reference list against which domain completeness and the sentinel
property are stated. -/
def condValuesFor (conds : List (String × String × String)) (a : String) :
    List String :=
  (conds.filter (fun c => c.1 == a)).map (fun c => c.2.2)

/-- All conditions of a rule list, flattened in processing order. -/
def condsOf (rules : List Rule) : List (String × String × String) :=
  rules.flatMap Rule.conditions

/-- Per-attribute account of the `addCondition` fold: the domain entry that
attribute `a` carries after processing a flat condition list. -/
def domAt (conds : List (String × String × String)) (a : String)
    (start : Option AttrDomain) : Option AttrDomain :=
  conds.foldl (fun od c =>
    if c.1 = a then
      some (match od with
        | none => ⟨c.2.1, [c.2.2]⟩
        | some d => ⟨d.category, setAdd c.2.2 d.values⟩)
    else od) start

/-- The two-rule policy of the spec's concrete scenario:
`rule-1: role=manager -> Permit`. -/
def exRule1 : Rule := ⟨"rule-1", "Permit", [("role", "subject", "manager")]⟩

/-- `rule-2: role=guest -> Deny`. -/
def exRule2 : Rule := ⟨"rule-2", "Deny", [("role", "subject", "guest")]⟩

/-- The two-rule policy list. -/
def exRules : List Rule := [exRule1, exRule2]

/-- A test vector covering `rule-1`. -/
def exTC1 : TestCase := ⟨1, [("role", "manager", "subject")], {"rule-1"}⟩

/-- A test vector covering `rule-2`. -/
def exTC2 : TestCase := ⟨2, [("role", "guest", "subject")], {"rule-2"}⟩

/-- The two-vector candidate pool used by the optimizer examples. -/
def exTCs : List TestCase := [exTC1, exTC2]

/-- The rule-id set of the two-rule policy. -/
def exRuleIds : Finset String := {"rule-1", "rule-2"}

/-- The all-zero random stream. -/
def gZero : RandF := fun _ => 0

/-- A random stream that first yields 11 (initial bits 1, no mutation),
yields 0 during the first generation's thirty draws (every bit flips), and
yields 11 afterwards (no further mutation). -/
def gC4 : RandF := fun k => if 20 ≤ k ∧ k < 50 then 0 else 11

theorem mem_coveredSet_aux (tcs : List TestCase) (acc : Finset String) (x : String) :
    x ∈ tcs.foldl (fun s tc => s ∪ tc.covers) acc ↔
      x ∈ acc ∨ ∃ tc ∈ tcs, x ∈ tc.covers := by
  induction tcs generalizing acc with
  | nil => simp
  | cons tc rest ih =>
    simp only [List.foldl_cons, ih, Finset.mem_union, List.mem_cons]
    constructor
    · rintro ((h | h) | ⟨t, ht, hx⟩)
      · exact Or.inl h
      · exact Or.inr ⟨tc, Or.inl rfl, h⟩
      · exact Or.inr ⟨t, Or.inr ht, hx⟩
    · rintro (h | ⟨t, (rfl | ht), hx⟩)
      · exact Or.inl (Or.inl h)
      · exact Or.inl (Or.inr hx)
      · exact Or.inr ⟨t, ht, hx⟩

theorem mem_coveredSet (tcs : List TestCase) (x : String) :
    x ∈ coveredSet tcs ↔ ∃ tc ∈ tcs, x ∈ tc.covers := by
  simpa using mem_coveredSet_aux tcs ∅ x

theorem coveredSet_subset (tcs : List TestCase) (all_rules : Finset String)
    (h : ∀ tc ∈ tcs, tc.covers ⊆ all_rules) : coveredSet tcs ⊆ all_rules := by
  intro x hx
  obtain ⟨tc, htc, hxc⟩ := (mem_coveredSet tcs x).mp hx
  exact h tc htc hxc

/-- C1.  The coverage evaluator never returns `0` on an empty rule-id set: it
faults with a division by zero there, in both variants (`testcase.py` has no
guard at all; `xacml_test_optimization.py` guards only the empty collection).
On a non-empty rule-id set it behaves as the claim states: the ratio of the
covered union to the rule count, in `[0, 1]` whenever each vector's covers
set draws from the rule ids, and `0` for an empty collection. -/
theorem rule_coverage_ratio_spec (test_cases : List TestCase)
    (all_rules : Finset String) (hne : all_rules.Nonempty)
    (hsub : ∀ tc ∈ test_cases, tc.covers ⊆ all_rules) :
    ∃ q, Testcase.rule_coverage test_cases all_rules = some q ∧
      q = ((coveredSet test_cases).card : ℚ) / (all_rules.card : ℚ) ∧
      0 ≤ q ∧ q ≤ 1 ∧ (test_cases = [] → q = 0) := by
  have hcard : 0 < all_rules.card := Finset.card_pos.mpr hne
  refine ⟨((coveredSet test_cases).card : ℚ) / (all_rules.card : ℚ), ?_, rfl, ?_, ?_, ?_⟩
  · simp [Testcase.rule_coverage, Nat.pos_iff_ne_zero.mp hcard]
  · positivity
  · rw [div_le_one (by exact_mod_cast hcard)]
    exact_mod_cast Finset.card_le_card (coveredSet_subset test_cases all_rules hsub)
  · rintro rfl
    simp [coveredSet]

/-- C1 witness: the spec conclusion evaluated on the two-rule scenario. -/
theorem rule_coverage_ratio_spec_witness :
    ∃ q, Testcase.rule_coverage exTCs exRuleIds = some q ∧
      q = ((coveredSet exTCs).card : ℚ) / ((exRuleIds).card : ℚ) ∧
      0 ≤ q ∧ q ≤ 1 ∧ (exTCs = [] → q = 0) :=
  rule_coverage_ratio_spec exTCs exRuleIds
    ⟨"rule-1", by decide⟩ (by with_unfolding_all decide)

/-- C1 counterexample: on an empty rule-id set both coverage variants fault
(`none`, a `ZeroDivisionError`) instead of returning `0`; the claim's
error-handling sentence is false of the code. -/
theorem rule_coverage_empty_rules_fault :
    Testcase.rule_coverage [] (∅ : Finset String) = none ∧
    XOpt.rule_coverage [⟨1, [], {"rule-1"}⟩] (∅ : Finset String) = none := by
  with_unfolding_all decide

/-- C3.  On the empty rule list the domain mapping is empty, but the
candidate pool is not: `itertools.product()` of zero value sets yields one
empty combination, so the generator returns exactly one vector, with id 1,
an empty assignment and an empty covers set. -/
theorem generate_empty_rule_list_spec :
    build_attribute_domains [] = [] ∧
    generate_test_cases [] = [{ id := 1, attributes := [], covers := ∅ }] := by
  with_unfolding_all decide

/-- C3 counterexample: the candidate pool for the empty rule list is not
empty, contradicting the claimed "empty candidate pool (zero test
vectors)". -/
theorem generate_empty_rule_list_not_empty :
    generate_test_cases [] ≠ [] ∧ (generate_test_cases []).length = 1 := by
  with_unfolding_all decide

/-- C9.  The concrete two-rule scenario: the `role` domain is
`{manager, guest, UNKNOWN}`, exactly three vectors are generated, the
`manager` vector covers `rule-1`, the `guest` vector covers `rule-2`, the
`UNKNOWN` vector covers nothing, and the full pool's coverage is 1. -/
theorem concrete_scenario_spec :
    ((build_attribute_domains exRules).lookup ("role")).map
        (fun d => d.values.toFinset) = some {"manager", "guest", "UNKNOWN"} ∧
    (generate_test_cases exRules).length = 3 ∧
    (∀ tc ∈ generate_test_cases exRules,
      ((tc.attributes.lookup ("role")).map Prod.fst = some ("manager") →
        tc.covers = {"rule-1"}) ∧
      ((tc.attributes.lookup ("role")).map Prod.fst = some ("guest") →
        tc.covers = {"rule-2"}) ∧
      ((tc.attributes.lookup ("role")).map Prod.fst = some ("UNKNOWN") →
        tc.covers = ∅)) ∧
    (∃ tc ∈ generate_test_cases exRules,
      (tc.attributes.lookup ("role")).map Prod.fst = some ("manager")) ∧
    (∃ tc ∈ generate_test_cases exRules,
      (tc.attributes.lookup ("role")).map Prod.fst = some ("guest")) ∧
    (∃ tc ∈ generate_test_cases exRules,
      (tc.attributes.lookup ("role")).map Prod.fst = some ("UNKNOWN")) ∧
    Testcase.rule_coverage (generate_test_cases exRules) exRuleIds = some 1 := by
  with_unfolding_all decide

/-- C8.  Coverage monotonicity: on a non-empty rule-id set, a sub-collection
of test vectors never reports more coverage than the larger collection; in
particular the full pool bounds every subset. -/
theorem coverage_monotone (S1 S2 : List TestCase) (all_rules : Finset String)
    (hne : all_rules.Nonempty) (hsub : ∀ tc ∈ S1, tc ∈ S2) :
    ∃ q1 q2, Testcase.rule_coverage S1 all_rules = some q1 ∧
      Testcase.rule_coverage S2 all_rules = some q2 ∧ q1 ≤ q2 := by
  have hcard : 0 < all_rules.card := Finset.card_pos.mpr hne
  have hcc : coveredSet S1 ⊆ coveredSet S2 := by
    intro x hx
    obtain ⟨tc, htc, hxc⟩ := (mem_coveredSet S1 x).mp hx
    exact (mem_coveredSet S2 x).mpr ⟨tc, hsub tc htc, hxc⟩
  refine ⟨((coveredSet S1).card : ℚ) / (all_rules.card : ℚ),
    ((coveredSet S2).card : ℚ) / (all_rules.card : ℚ), ?_, ?_, ?_⟩
  · simp [Testcase.rule_coverage, Nat.pos_iff_ne_zero.mp hcard]
  · simp [Testcase.rule_coverage, Nat.pos_iff_ne_zero.mp hcard]
  · rw [div_le_div_iff_of_pos_right (by exact_mod_cast hcard)]
    exact_mod_cast Finset.card_le_card hcc

/-- C8 witness: the singleton suite against the full two-vector pool. -/
theorem coverage_monotone_witness :
    ∃ q1 q2, Testcase.rule_coverage [exTC1] exRuleIds = some q1 ∧
      Testcase.rule_coverage exTCs exRuleIds = some q2 ∧ q1 ≤ q2 :=
  coverage_monotone [exTC1] exTCs exRuleIds
    ⟨"rule-1", by decide⟩ (by with_unfolding_all decide)

theorem setAdd_mem (v w : String) (l : List String) (h : v ∈ l) :
    v ∈ setAdd w l := by
  unfold setAdd
  split
  · exact h
  · exact List.mem_append_left _ h

theorem setAdd_self (w : String) (l : List String) : w ∈ setAdd w l := by
  unfold setAdd
  split
  · assumption
  · simp

theorem build_foldl_flatten (rules : List Rule) (acc : List (String × AttrDomain)) :
    rules.foldl (fun ds r => r.conditions.foldl addCondition ds) acc =
      (condsOf rules).foldl addCondition acc := by
  induction rules generalizing acc with
  | nil => rfl
  | cons r rest ih =>
    simp only [List.foldl_cons, condsOf, List.flatMap_cons, List.foldl_append]
    exact ih _

theorem lookup_addCondition (ds : List (String × AttrDomain))
    (c : String × String × String) (a : String) :
    (addCondition ds c).lookup a =
      if c.1 = a then
        some (match ds.lookup a with
          | none => ⟨c.2.1, [c.2.2]⟩
          | some d => ⟨d.category, setAdd c.2.2 d.values⟩)
      else ds.lookup a := by
  obtain ⟨attr, cat, value⟩ := c
  induction ds with
  | nil =>
    by_cases h : attr = a
    · simp [addCondition, List.lookup, h]
    · simp only [addCondition, List.lookup_cons]
      have hba : (a == attr) = false := by
        simp [beq_eq_false_iff_ne]
        exact fun e => h e.symm
      simp [hba, h, List.lookup]
  | cons p rest ih =>
    obtain ⟨pa, pd⟩ := p
    by_cases hpa : pa = attr
    · subst hpa
      by_cases h : pa = a
      · subst h
        simp [addCondition, List.lookup_cons]
      · have hba : (a == pa) = false := by
          simp [beq_eq_false_iff_ne]
          exact fun e => h e.symm
        simp [addCondition, List.lookup_cons, hba, h]
    · by_cases h : pa = a
      · subst h
        have hne : ¬ attr = pa := fun e => hpa e.symm
        by_cases hca : attr = pa
        · exact absurd hca hne
        · simp only [addCondition, if_neg hpa, List.lookup_cons, beq_self_eq_true]
          simp only [List.lookup_cons, beq_self_eq_true] at ih ⊢
          by_cases hcc : attr = pa
          · exact absurd hcc hne
          · simp [hcc]
      · have hba : (a == pa) = false := by
          simp [beq_eq_false_iff_ne]
          exact fun e => h e.symm
        simp only [addCondition, if_neg hpa, List.lookup_cons, hba]
        simpa [List.lookup_cons, hba] using ih

theorem mem_setAdd_iff (v w : String) (l : List String) :
    v ∈ setAdd w l ↔ v ∈ l ∨ v = w := by
  unfold setAdd
  split
  · constructor
    · exact Or.inl
    · rintro (h | rfl) <;> assumption
  · simp

theorem condValuesFor_cons (c : String × String × String)
    (conds : List (String × String × String)) (a : String) :
    condValuesFor (c :: conds) a =
      if c.1 = a then c.2.2 :: condValuesFor conds a else condValuesFor conds a := by
  by_cases h : c.1 = a <;> simp [condValuesFor, List.filter_cons, h]

theorem lookup_foldl_addCondition (conds : List (String × String × String))
    (ds : List (String × AttrDomain)) (a : String) :
    (conds.foldl addCondition ds).lookup a = domAt conds a (ds.lookup a) := by
  induction conds generalizing ds with
  | nil => rfl
  | cons c rest ih =>
    simp only [List.foldl_cons]
    rw [ih (addCondition ds c), lookup_addCondition]
    rfl

theorem domAt_persist (conds : List (String × String × String)) (a : String)
    (d0 : AttrDomain) :
    ∃ d, domAt conds a (some d0) = some d ∧ d.category = d0.category ∧
      ∀ v ∈ d0.values, v ∈ d.values := by
  induction conds generalizing d0 with
  | nil => exact ⟨d0, rfl, rfl, fun v h => h⟩
  | cons c rest ih =>
    show ∃ d, domAt rest a
      (if c.1 = a then some ⟨d0.category, setAdd c.2.2 d0.values⟩ else some d0) =
        some d ∧ _
    by_cases h : c.1 = a
    · rw [if_pos h]
      obtain ⟨d, hd, hcat, hvals⟩ := ih ⟨d0.category, setAdd c.2.2 d0.values⟩
      exact ⟨d, hd, hcat, fun v hv => hvals v (setAdd_mem v c.2.2 d0.values hv)⟩
    · rw [if_neg h]
      exact ih d0

theorem domAt_cons (c : String × String × String)
    (conds : List (String × String × String)) (a : String)
    (st : Option AttrDomain) :
    domAt (c :: conds) a st = domAt conds a
      (if c.1 = a then
        some (match st with
          | none => ⟨c.2.1, [c.2.2]⟩
          | some d => ⟨d.category, setAdd c.2.2 d.values⟩)
        else st) := rfl

theorem domAt_values_sub (conds : List (String × String × String)) (a : String)
    (st : Option AttrDomain) (d : AttrDomain) (h : domAt conds a st = some d)
    (v : String) (hv : v ∈ d.values) :
    (∃ d0, st = some d0 ∧ v ∈ d0.values) ∨ v ∈ condValuesFor conds a := by
  induction conds generalizing st with
  | nil => exact Or.inl ⟨d, h, hv⟩
  | cons c rest ih =>
    rw [condValuesFor_cons]
    rw [domAt_cons] at h
    have h' := h
    by_cases hca : c.1 = a
    · rw [if_pos hca] at h'
      rcases ih _ h' with ⟨d0, hd0, hv0⟩ | hrest
      · cases st with
        | none =>
          injection hd0 with hd0
          subst hd0
          simp only [List.mem_singleton] at hv0
          rw [if_pos hca]
          exact Or.inr (by simp [hv0])
        | some dp =>
          injection hd0 with hd0
          subst hd0
          rcases (mem_setAdd_iff v c.2.2 dp.values).mp hv0 with hmem | rfl
          · exact Or.inl ⟨dp, rfl, hmem⟩
          · rw [if_pos hca]
            exact Or.inr (by simp)
      · rw [if_pos hca]
        exact Or.inr (List.mem_cons_of_mem _ hrest)
    · rw [if_neg hca] at h'
      rw [if_neg hca]
      exact ih _ h'

theorem domAt_category_origin (conds : List (String × String × String))
    (a : String) (st : Option AttrDomain) (d : AttrDomain)
    (h : domAt conds a st = some d) :
    (∃ d0, st = some d0 ∧ d.category = d0.category) ∨
      ∃ c ∈ conds, c.1 = a ∧ d.category = c.2.1 := by
  induction conds generalizing st with
  | nil => exact Or.inl ⟨d, h, rfl⟩
  | cons c rest ih =>
    rw [domAt_cons] at h
    have h' := h
    by_cases hca : c.1 = a
    · rw [if_pos hca] at h'
      rcases ih _ h' with ⟨d0, hd0, hcat⟩ | ⟨c', hc', ha', hcat'⟩
      · cases st with
        | none =>
          injection hd0 with hd0
          subst hd0
          exact Or.inr ⟨c, List.mem_cons_self c rest, hca, hcat⟩
        | some dp =>
          injection hd0 with hd0
          subst hd0
          exact Or.inl ⟨dp, rfl, hcat⟩
      · exact Or.inr ⟨c', List.mem_cons_of_mem _ hc', ha', hcat'⟩
    · rw [if_neg hca] at h'
      rcases ih _ h' with hl | ⟨c', hc', ha', hcat'⟩
      · exact Or.inl hl
      · exact Or.inr ⟨c', List.mem_cons_of_mem _ hc', ha', hcat'⟩

theorem domAt_value_present (conds : List (String × String × String))
    (a : String) (st : Option AttrDomain) (c0 : String × String × String)
    (hc : c0 ∈ conds) (ha : c0.1 = a) :
    ∃ d, domAt conds a st = some d ∧ c0.2.2 ∈ d.values := by
  induction conds generalizing st with
  | nil => cases hc
  | cons c rest ih =>
    rcases List.mem_cons.mp hc with rfl | hmem
    · rw [domAt_cons]
      rw [if_pos ha]
      cases st with
      | none =>
        obtain ⟨d, hd, _, hvals⟩ := domAt_persist rest a ⟨c0.2.1, [c0.2.2]⟩
        exact ⟨d, hd, hvals _ (by simp)⟩
      | some dp =>
        obtain ⟨d, hd, _, hvals⟩ := domAt_persist rest a ⟨dp.category, setAdd c0.2.2 dp.values⟩
        exact ⟨d, hd, hvals _ (setAdd_self _ _)⟩
    · rw [domAt_cons]
      exact ih _ hmem

theorem lookup_map_sentinel (ds : List (String × AttrDomain)) (a : String) :
    (ds.map (fun ad =>
      (ad.1, AttrDomain.mk ad.2.category (setAdd ("UNKNOWN") ad.2.values)))).lookup a =
      (ds.lookup a).map
        (fun d => AttrDomain.mk d.category (setAdd ("UNKNOWN") d.values)) := by
  induction ds with
  | nil => rfl
  | cons p rest ih =>
    obtain ⟨pa, pd⟩ := p
    by_cases h : a = pa
    · subst h
      simp [List.lookup_cons]
    · have hba : (a == pa) = false := by
        simp [beq_eq_false_iff_ne]
        exact h
      simp [List.lookup_cons, hba, ih]

theorem build_attribute_domains_lookup (rules : List Rule) (a : String) :
    (build_attribute_domains rules).lookup a =
      (domAt (condsOf rules) a none).map
        (fun d => ⟨d.category, setAdd ("UNKNOWN") d.values⟩) := by
  show ((rules.foldl (fun ds r => r.conditions.foldl addCondition ds) []).map
      (fun ad => (ad.1, AttrDomain.mk ad.2.category (setAdd ("UNKNOWN") ad.2.values)))).lookup a =
    (domAt (condsOf rules) a none).map
      (fun d => AttrDomain.mk d.category (setAdd ("UNKNOWN") d.values))
  rw [build_foldl_flatten, lookup_map_sentinel, lookup_foldl_addCondition]
  rfl

/-- C7.  Domain completeness: for every condition `(a, c, v)` of any rule,
`v` is in the built domain of `a`; the registered category equals `c`
provided all rules agree on the category of `a` (the code keeps the first
writer's category, so without that agreement the claim fails,
`domain_category_first_writer_counterexample`). -/
theorem domain_completeness (rules : List Rule) (r : Rule)
    (c : String × String × String) (hr : r ∈ rules) (hc : c ∈ r.conditions) :
    ∃ d, (build_attribute_domains rules).lookup c.1 = some d ∧
      c.2.2 ∈ d.values ∧
      ((∀ r' ∈ rules, ∀ c' ∈ r'.conditions, c'.1 = c.1 → c'.2.1 = c.2.1) →
        d.category = c.2.1) := by
  have hcc : c ∈ condsOf rules := List.mem_flatMap.mpr ⟨r, hr, hc⟩
  obtain ⟨d0, hd0, hv0⟩ := domAt_value_present (condsOf rules) c.1 none c hcc rfl
  refine ⟨AttrDomain.mk d0.category (setAdd ("UNKNOWN") d0.values), ?_, ?_, ?_⟩
  · rw [build_attribute_domains_lookup, hd0]
    rfl
  · exact setAdd_mem _ _ _ hv0
  · intro hcons
    rcases domAt_category_origin (condsOf rules) c.1 none d0 hd0 with
      ⟨dp, hne, _⟩ | ⟨c', hc', ha', hcat⟩
    · cases hne
    · obtain ⟨r', hr', hcr'⟩ := List.mem_flatMap.mp hc'
      show d0.category = c.2.1
      rw [hcat]
      exact hcons r' hr' c' hcr' ha'

/-- C7 witness: the manager condition of the two-rule scenario. -/
theorem domain_completeness_witness :
    ∃ d, (build_attribute_domains exRules).lookup
        (("role", "subject", "manager") : String × String × String).1 = some d ∧
      (("role", "subject", "manager") : String × String × String).2.2 ∈ d.values ∧
      ((∀ r' ∈ exRules, ∀ c' ∈ r'.conditions,
          c'.1 = (("role", "subject", "manager") : String × String × String).1 →
          c'.2.1 = (("role", "subject", "manager") : String × String × String).2.1) →
        d.category = (("role", "subject", "manager") : String × String × String).2.1) :=
  domain_completeness exRules exRule1 ("role", "subject", "manager")
    (by decide) (by decide)

/-- C7 counterexample: with two rules registering different categories for
the same attribute, the built category is the first writer's, so it differs
from the second rule's condition category, falsifying the unconditional
claim. -/
theorem domain_category_first_writer_counterexample :
    ((build_attribute_domains
      [⟨"r1", "Permit", [("role", "catA", "v1")]⟩,
       ⟨"r2", "Deny", [("role", "catB", "v2")]⟩]).lookup ("role")).map
        AttrDomain.category = some ("catA") ∧
    ("role", "catB", "v2") ∈
      (⟨"r2", "Deny", [("role", "catB", "v2")]⟩ : Rule).conditions ∧
    ("catA" : String) ≠ "catB" := by
  with_unfolding_all decide

/-- C6.  Sentinel presence, amended: provided the literal `"UNKNOWN"` does
not occur as a condition value for the attribute, the built domain contains
exactly one value absent from all that attribute's rule conditions, namely
the sentinel itself; when some rule does use `"UNKNOWN"` the domain has no
absent value at all (`sentinel_presence_counterexample`). -/
theorem sentinel_presence (rules : List Rule) (a : String) (d : AttrDomain)
    (h : (build_attribute_domains rules).lookup a = some d)
    (hun : ("UNKNOWN") ∉ condValuesFor (condsOf rules) a) :
    d.values.filter (fun v => decide (v ∉ condValuesFor (condsOf rules) a)) =
      ["UNKNOWN"] := by
  rw [build_attribute_domains_lookup] at h
  cases hd0 : domAt (condsOf rules) a none with
  | none =>
    rw [hd0] at h
    cases h
  | some d0 =>
    rw [hd0] at h
    injection h with h
    subst h
    have hsub : ∀ v ∈ d0.values, v ∈ condValuesFor (condsOf rules) a := by
      intro v hv
      rcases domAt_values_sub _ _ _ _ hd0 v hv with ⟨dp, hp, _⟩ | hmem
      · cases hp
      · exact hmem
    have hnotin : ("UNKNOWN") ∉ d0.values := fun hmem => hun (hsub _ hmem)
    show (setAdd ("UNKNOWN") d0.values).filter _ = _
    rw [setAdd, if_neg hnotin, List.filter_append]
    have h1 : d0.values.filter
        (fun v => decide (v ∉ condValuesFor (condsOf rules) a)) = [] :=
      List.filter_eq_nil_iff.mpr (by
        intro v hv
        simpa using hsub v hv)
    rw [h1]
    simp [hun]

/-- C6 witness: the `role` domain of the two-rule scenario has the sentinel
as its unique value absent from all conditions. -/
theorem sentinel_presence_witness :
    (AttrDomain.mk ("subject") ["manager", "guest", "UNKNOWN"]).values.filter
      (fun v => decide (v ∉ condValuesFor (condsOf exRules) ("role"))) =
      ["UNKNOWN"] :=
  sentinel_presence exRules ("role")
    (AttrDomain.mk ("subject") ["manager", "guest", "UNKNOWN"])
    (by with_unfolding_all decide) (by decide)

/-- C6 counterexample: when a rule's condition value is itself `"UNKNOWN"`,
`set.add("UNKNOWN")` is a no-op and the domain contains zero values absent
from the rule conditions, not exactly one. -/
theorem sentinel_presence_counterexample :
    ((build_attribute_domains
      [⟨"r1", "Permit", [("role", "subject", "UNKNOWN")]⟩]).lookup ("role")).map
        (fun d => (d.values.filter (fun v => decide (v ∉ condValuesFor
          (condsOf [⟨"r1", "Permit", [("role", "subject", "UNKNOWN")]⟩])
          ("role")))).length) = some 0 := by
  with_unfolding_all decide

theorem lookup_dictInsert_self (m : List (String × String × String))
    (a : String) (vc : String × String) :
    (XGa.dictInsert m a vc).lookup a = some vc := by
  induction m with
  | nil => simp [XGa.dictInsert, List.lookup_cons]
  | cons p rest ih =>
    obtain ⟨pa, pv, pc⟩ := p
    by_cases h : pa = a
    · subst h
      simp [XGa.dictInsert, List.lookup_cons]
    · have hba : (a == pa) = false := by
        simp [beq_eq_false_iff_ne]
        exact fun e => h e.symm
      simp [XGa.dictInsert, h, List.lookup_cons, hba, ih]

theorem lookup_dictInsert_ne (m : List (String × String × String))
    (a : String) (vc : String × String) (b : String) (h : b ≠ a) :
    (XGa.dictInsert m a vc).lookup b = m.lookup b := by
  induction m with
  | nil =>
    have hba : (b == a) = false := by
      simp [beq_eq_false_iff_ne]
      exact h
    simp [XGa.dictInsert, List.lookup_cons, hba]
  | cons p rest ih =>
    obtain ⟨pa, pv, pc⟩ := p
    by_cases hpa : pa = a
    · subst hpa
      have hba : (b == pa) = false := by
        simp [beq_eq_false_iff_ne]
        exact h
      simp [XGa.dictInsert, List.lookup_cons, hba]
    · by_cases hbp : b = pa
      · subst hbp
        simp [XGa.dictInsert, hpa, List.lookup_cons]
      · have hba : (b == pa) = false := by
          simp [beq_eq_false_iff_ne]
          exact hbp
        simp [XGa.dictInsert, hpa, List.lookup_cons, hba, ih]

theorem foldl_dictInsert_lookup (conds : List (String × String × String))
    (m : List (String × String × String)) (a : String) :
    (conds.foldl (fun m c => XGa.dictInsert m c.1 (c.2.2, c.2.1)) m).lookup a =
      (match (conds.filter (fun c => c.1 == a)).getLast? with
        | some c => some (c.2.2, c.2.1)
        | none => m.lookup a) := by
  induction conds generalizing m with
  | nil => rfl
  | cons c rest ih =>
    simp only [List.foldl_cons, List.filter_cons]
    rw [ih]
    by_cases hca : c.1 = a
    · simp only [hca, beq_self_eq_true, if_true]
      cases hrest : rest.filter (fun c => c.1 == a) with
      | nil =>
        simp only [List.getLast?_nil, List.getLast?_singleton]
        exact lookup_dictInsert_self m a (c.2.2, c.2.1)
      | cons q qs =>
        rw [List.getLast?_cons_cons]
        cases hq : (q :: qs).getLast? with
        | none =>
          rw [List.getLast?_eq_none_iff] at hq
          cases hq
        | some x => rfl
    · have hba : (c.1 == a) = false := by
        simp [beq_eq_false_iff_ne]
        exact hca
      simp only [hba, if_false]
      cases hrest : rest.filter (fun c => c.1 == a) with
      | nil =>
        simp only [List.getLast?_nil]
        exact lookup_dictInsert_ne m c.1 (c.2.2, c.2.1) a (fun e => hca e.symm)
      | cons q qs =>
        cases hq : (q :: qs).getLast? with
        | none =>
          rw [List.getLast?_eq_none_iff] at hq
          cases hq
        | some x => simp [hq]

theorem dfsAux_length (rules : List Rule) (t : ℕ) :
    (XGa.dfsAux t rules).length = rules.length + 1 := by
  induction rules generalizing t with
  | nil => rfl
  | cons r rest ih => simp [XGa.dfsAux, ih]

theorem dfsAux_getElem (rules : List Rule) (t i : ℕ) (h : i < rules.length) :
    (XGa.dfsAux t rules)[i]? =
      some ⟨t + i, XGa.ruleAttributes (rules.get ⟨i, h⟩), {(rules.get ⟨i, h⟩).id}⟩ := by
  induction rules generalizing t i with
  | nil => cases h
  | cons r rest ih =>
    cases i with
    | zero => simp [XGa.dfsAux]
    | succ j =>
      have hj : j < rest.length := Nat.lt_of_succ_lt_succ h
      rw [show XGa.dfsAux t (r :: rest) =
          ⟨t, XGa.ruleAttributes r, {r.id}⟩ :: XGa.dfsAux (t + 1) rest from rfl,
        List.getElem?_cons_succ, ih (t + 1) j hj]
      have ht : t + 1 + j = t + (j + 1) := by omega
      simp [ht]

theorem dfsAux_getLast (rules : List Rule) (t : ℕ) :
    (XGa.dfsAux t rules).getLast? =
      some ⟨t + rules.length, [("role", "unknown", "subject")], ∅⟩ := by
  induction rules generalizing t with
  | nil => simp [XGa.dfsAux]
  | cons r rest ih =>
    rw [show XGa.dfsAux t (r :: rest) =
        ⟨t, XGa.ruleAttributes r, {r.id}⟩ :: XGa.dfsAux (t + 1) rest from rfl]
    cases hrest : XGa.dfsAux (t + 1) rest with
    | nil =>
      have := dfsAux_length rest (t + 1)
      rw [hrest] at this
      cases this
    | cons q qs =>
      rw [List.getLast?_cons_cons, ← hrest, ih]
      have ht : t + 1 + rest.length = t + (rest.length + 1) := by omega
      simp [ht]

/-- C10.  The DFS generator returns `len(rules) + 1` cases; the `i`-th case
has id `i + 1`, covers exactly the `i`-th rule's id (no satisfaction check —
the label is unconditional), and its assignment maps each attribute to the
last condition of the rule constraining it (the dict write lets later
conditions overwrite earlier ones); the final appended case has id
`len(rules) + 1`, the fixed `role=unknown` assignment and an empty covers
set. -/
theorem dfs_generate_spec (rules : List Rule) :
    (XGa.dfs_generate_test_cases rules).length = rules.length + 1 ∧
    (∀ i (h : i < rules.length),
      (XGa.dfs_generate_test_cases rules)[i]? =
        some ⟨i + 1, XGa.ruleAttributes (rules.get ⟨i, h⟩),
          {(rules.get ⟨i, h⟩).id}⟩) ∧
    (∀ r : Rule, ∀ a : String,
      (XGa.ruleAttributes r).lookup a =
        (match (r.conditions.filter (fun c => c.1 == a)).getLast? with
          | some c => some (c.2.2, c.2.1)
          | none => none)) ∧
    (XGa.dfs_generate_test_cases rules).getLast? =
      some ⟨rules.length + 1, [("role", "unknown", "subject")], ∅⟩ := by
  refine ⟨dfsAux_length rules 1, ?_, ?_, ?_⟩
  · intro i h
    rw [XGa.dfs_generate_test_cases, dfsAux_getElem rules 1 i h]
    have : 1 + i = i + 1 := by omega
    simp [this]
  · intro r a
    exact foldl_dictInsert_lookup r.conditions [] a
  · rw [XGa.dfs_generate_test_cases, dfsAux_getLast rules 1]
    have : 1 + rules.length = rules.length + 1 := by omega
    simp [this]

/-- C10 witness: the spec instantiated on the two-rule scenario at index 0. -/
theorem dfs_generate_spec_witness :
    (XGa.dfs_generate_test_cases exRules).length = exRules.length + 1 ∧
    (XGa.dfs_generate_test_cases exRules)[0]? =
      some ⟨0 + 1, XGa.ruleAttributes (exRules.get ⟨0, by decide⟩),
        {(exRules.get ⟨0, by decide⟩).id}⟩ ∧
    (XGa.dfs_generate_test_cases exRules).getLast? =
      some ⟨exRules.length + 1, [("role", "unknown", "subject")], ∅⟩ :=
  ⟨(dfs_generate_spec exRules).1,
    (dfs_generate_spec exRules).2.1 0 (by decide),
    (dfs_generate_spec exRules).2.2.2⟩

theorem fitness_eq_fitQ (ind : List ℕ) (tcs : List TestCase)
    (rules : Finset String) (h : rules.Nonempty) :
    Testcase.fitness ind tcs rules (4 / 5) (1 / 5) =
      some (Testcase.fitQ ind tcs rules) := by
  have hc : rules.card ≠ 0 := Nat.pos_iff_ne_zero.mp (Finset.card_pos.mpr h)
  by_cases hsel : (Testcase.selectedTCs ind tcs).isEmpty <;>
    simp [Testcase.fitness, Testcase.fitQ, Testcase.rule_coverage, hsel, hc]

theorem computeKeys_eq (tcs : List TestCase) (rules : Finset String)
    (h : rules.Nonempty) (pop : List (List ℕ)) :
    Testcase.computeKeys tcs rules pop =
      some (pop.map (fun x => (x, Testcase.fitQ x tcs rules))) := by
  induction pop with
  | nil => rfl
  | cons x rest ih =>
    rw [show Testcase.computeKeys tcs rules (x :: rest) =
        (Testcase.fitness x tcs rules (4 / 5) (1 / 5)).bind (fun f =>
          (Testcase.computeKeys tcs rules rest).bind
            (fun tl => some ((x, f) :: tl))) from rfl,
      fitness_eq_fitQ x tcs rules h, ih]
    rfl

theorem sortByFitness_eq (tcs : List TestCase) (rules : Finset String)
    (h : rules.Nonempty) (pop : List (List ℕ)) :
    Testcase.sortByFitness tcs rules pop = some (Testcase.sortQ tcs rules pop) := by
  simp [Testcase.sortByFitness, computeKeys_eq tcs rules h pop, Testcase.sortQ]

theorem sortQ_perm (tcs : List TestCase) (rules : Finset String)
    (pop : List (List ℕ)) : (Testcase.sortQ tcs rules pop).Perm pop := by
  unfold Testcase.sortQ
  have h1 := List.mergeSort_perm
    (pop.map (fun x => (x, Testcase.fitQ x tcs rules)))
    (fun a b => decide (b.2 ≤ a.2))
  have h2 := h1.map Prod.fst
  rw [List.map_map] at h2
  rw [show (Prod.fst ∘ fun x : List ℕ => (x, Testcase.fitQ x tcs rules)) = id from rfl,
    List.map_id] at h2
  exact h2

theorem sortQ_length (tcs : List TestCase) (rules : Finset String)
    (pop : List (List ℕ)) :
    (Testcase.sortQ tcs rules pop).length = pop.length :=
  (sortQ_perm tcs rules pop).length_eq

theorem sortQ_mem (tcs : List TestCase) (rules : Finset String)
    (pop : List (List ℕ)) (x : List ℕ) (hx : x ∈ Testcase.sortQ tcs rules pop) :
    x ∈ pop :=
  ((sortQ_perm tcs rules pop).mem_iff).mp hx

theorem sortQ_head_max (tcs : List TestCase) (rules : Finset String)
    (pop : List (List ℕ)) (x : List ℕ) (hx : x ∈ pop) :
    Testcase.fitQ x tcs rules ≤
      Testcase.fitQ ((Testcase.sortQ tcs rules pop).headI) tcs rules := by
  have htrans : ∀ a b c : List ℕ × ℚ,
      (fun a b : List ℕ × ℚ => decide (b.2 ≤ a.2)) a b = true →
      (fun a b : List ℕ × ℚ => decide (b.2 ≤ a.2)) b c = true →
      (fun a b : List ℕ × ℚ => decide (b.2 ≤ a.2)) a c = true := by
    intro a b c hab hbc
    exact decide_eq_true (le_trans (of_decide_eq_true hbc) (of_decide_eq_true hab))
  have htotal : ∀ a b : List ℕ × ℚ,
      ((fun a b : List ℕ × ℚ => decide (b.2 ≤ a.2)) a b ||
        (fun a b : List ℕ × ℚ => decide (b.2 ≤ a.2)) b a) = true := by
    intro a b
    rcases le_total a.2 b.2 with h | h <;> simp [h]
  have hsorted := List.sorted_mergeSort htrans htotal
    (pop.map (fun y => (y, Testcase.fitQ y tcs rules)))
  have hperm := List.mergeSort_perm
    (pop.map (fun y => (y, Testcase.fitQ y tcs rules)))
    (fun a b => decide (b.2 ≤ a.2))
  have hmemk : (x, Testcase.fitQ x tcs rules) ∈
      (pop.map (fun y => (y, Testcase.fitQ y tcs rules))).mergeSort
        (fun a b => decide (b.2 ≤ a.2)) :=
    hperm.mem_iff.mpr (List.mem_map.mpr ⟨x, hx, rfl⟩)
  cases hms : (pop.map (fun y => (y, Testcase.fitQ y tcs rules))).mergeSort
      (fun a b => decide (b.2 ≤ a.2)) with
  | nil =>
    rw [hms] at hmemk
    cases hmemk
  | cons h0 t =>
    have hhead : (Testcase.sortQ tcs rules pop).headI = h0.1 := by
      unfold Testcase.sortQ
      rw [hms]
      rfl
    have hh0k : h0 ∈ pop.map (fun y => (y, Testcase.fitQ y tcs rules)) :=
      hperm.mem_iff.mp (by
        rw [hms]
        exact List.mem_cons_self h0 t)
    obtain ⟨y, _, hy⟩ := List.mem_map.mp hh0k
    have hh0snd : h0.2 = Testcase.fitQ h0.1 tcs rules := by rw [← hy]
    rw [hms] at hmemk
    rw [hhead, ← hh0snd]
    rcases List.mem_cons.mp hmemk with heq | hmem
    · exact le_of_eq (congrArg Prod.snd heq)
    · rw [hms] at hsorted
      exact of_decide_eq_true (List.rel_of_pairwise_cons hsorted hmem)

theorem mutate_length (g : RandF) (rate : ℚ) (l : List ℕ) (k : ℕ) :
    (mutate g rate l k).1.length = l.length := by
  induction l generalizing k with
  | nil => rfl
  | cons b bs ih => simp [mutate, ih]

theorem crossover_none (g : RandF) (p1 p2 : List ℕ) (k : ℕ)
    (h : p1.length ≤ 1) : crossover g p1 p2 k = none := by
  have h1 : p1.length - 1 < 1 := by omega
  simp [crossover, randint, h1]

theorem crossover_some (g : RandF) (p1 p2 : List ℕ) (k : ℕ)
    (h1 : 2 ≤ p1.length) (h2 : p2.length = p1.length) :
    ∃ child, crossover g p1 p2 k = some (child, k + 1) ∧
      child.length = p1.length := by
  have hlt : ¬ (p1.length - 1 < 1) := by omega
  refine ⟨p1.take (1 + g k % (p1.length - 1 + 1 - 1)) ++
    p2.drop (1 + g k % (p1.length - 1 + 1 - 1)), ?_, ?_⟩
  · simp [crossover, randint, hlt]
  · have hmod : g k % (p1.length - 1 + 1 - 1) < p1.length - 1 := by
      apply Nat.mod_lt
      omega
    simp only [List.length_append, List.length_take, List.length_drop, h2]
    omega

theorem sample2_some (g : RandF) (l : List (List ℕ)) (k : ℕ)
    (h : 2 ≤ l.length) :
    ∃ p1 p2, sample2 g l k = some (p1, p2, k + 2) ∧ p1 ∈ l ∧ p2 ∈ l := by
  have hnl : ¬ (l.length < 2) := by omega
  have hi : g k % l.length < l.length := Nat.mod_lt _ (by omega)
  have hj0 : g (k + 1) % (l.length - 1) < l.length - 1 := Nat.mod_lt _ (by omega)
  have hj : (if g k % l.length ≤ g (k + 1) % (l.length - 1)
      then g (k + 1) % (l.length - 1) + 1
      else g (k + 1) % (l.length - 1)) < l.length := by
    split <;> omega
  refine ⟨l.getD (g k % l.length) [],
    l.getD (if g k % l.length ≤ g (k + 1) % (l.length - 1)
      then g (k + 1) % (l.length - 1) + 1
      else g (k + 1) % (l.length - 1)) [], ?_, ?_, ?_⟩
  · simp [sample2, hnl]
  · rw [List.getD_eq_getElem l [] hi]
    exact List.getElem_mem hi
  · rw [List.getD_eq_getElem l [] hj]
    exact List.getElem_mem hj

theorem random_individual_length (g : RandF) (n k : ℕ) :
    (random_individual g n k).1.length = n := by
  induction n generalizing k with
  | zero => rfl
  | succ m ih => simp [random_individual, ih]

theorem initPopulation_length (g : RandF) (ps n k : ℕ) :
    (initPopulation g ps n k).1.length = ps := by
  induction ps generalizing k with
  | zero => rfl
  | succ m ih => simp [initPopulation, ih]

theorem initPopulation_mem_length (g : RandF) (ps n k : ℕ) :
    ∀ p ∈ (initPopulation g ps n k).1, p.length = n := by
  induction ps generalizing k with
  | zero =>
    intro p hp
    cases hp
  | succ m ih =>
    intro p hp
    simp only [initPopulation] at hp
    rcases List.mem_cons.mp hp with rfl | hmem
    · exact random_individual_length g n k
    · exact ih _ p hmem

theorem nextGenChildren_spec (g : RandF) (top10 : List (List ℕ)) (N : ℕ)
    (htop : 2 ≤ top10.length) (hlen : ∀ p ∈ top10, p.length = N)
    (hN : 2 ≤ N) :
    ∀ n k, ∃ cs k', Testcase.nextGenChildren g top10 n k = some (cs, k') ∧
      cs.length = n ∧ ∀ c ∈ cs, c.length = N := by
  intro n
  induction n with
  | zero =>
    intro k
    exact ⟨[], k, rfl, rfl, fun c hc => absurd hc (List.not_mem_nil c)⟩
  | succ m ih =>
    intro k
    obtain ⟨p1, p2, hs, hp1, hp2⟩ := sample2_some g top10 k htop
    have hp1len : p1.length = N := hlen p1 hp1
    have hp2len : p2.length = N := hlen p2 hp2
    obtain ⟨child, hx, hclen⟩ := crossover_some g p1 p2 (k + 2)
      (by omega) (by omega)
    obtain ⟨cs, k', hrest, hcslen, hcmem⟩ :=
      ih (mutate g (1 / 20) child (k + 2 + 1)).2
    refine ⟨(mutate g (1 / 20) child (k + 2 + 1)).1 :: cs, k', ?_, ?_, ?_⟩
    · rw [show Testcase.nextGenChildren g top10 (m + 1) k =
          (sample2 g top10 k).bind (fun s =>
            (crossover g s.1 s.2.1 s.2.2).bind (fun ck =>
              (Testcase.nextGenChildren g top10 m
                (mutate g (1 / 20) ck.1 ck.2).2).bind (fun rk =>
                  some ((mutate g (1 / 20) ck.1 ck.2).1 :: rk.1, rk.2)))) from rfl,
        hs]
      simp only [Option.some_bind]
      rw [hx]
      simp only [Option.some_bind]
      rw [hrest]
      rfl
    · simp [hcslen]
    · intro c hc
      rcases List.mem_cons.mp hc with rfl | hmem
      · rw [mutate_length, hclen, hp1len]
      · exact hcmem c hmem

theorem gaStep_spec (g : RandF) (tcs : List TestCase) (rules : Finset String)
    (ps : ℕ) (pop : List (List ℕ)) (k : ℕ) (hrules : rules.Nonempty)
    (hps : 2 ≤ ps) (hN : 2 ≤ tcs.length)
    (hpop : pop.length = ps) (hlen : ∀ p ∈ pop, p.length = tcs.length) :
    ∃ pop' k', Testcase.gaStep g tcs rules ps pop k = some (pop', k') ∧
      pop'.length = ps ∧ (∀ p ∈ pop', p.length = tcs.length) ∧
      pop'.headI ∈ pop' ∧
      (∀ x ∈ pop, Testcase.fitQ x tcs rules ≤
        Testcase.fitQ pop'.headI tcs rules) := by
  have hspoplen : (Testcase.sortQ tcs rules pop).length = ps := by
    rw [sortQ_length, hpop]
  have hspopmem : ∀ p ∈ Testcase.sortQ tcs rules pop, p.length = tcs.length :=
    fun p hp => hlen p (sortQ_mem _ _ _ p hp)
  have htop : 2 ≤ ((Testcase.sortQ tcs rules pop).take 10).length := by
    rw [List.length_take]
    omega
  have htopmem : ∀ p ∈ (Testcase.sortQ tcs rules pop).take 10,
      p.length = tcs.length :=
    fun p hp => hspopmem p (List.mem_of_mem_take hp)
  have helite : ((Testcase.sortQ tcs rules pop).take 2).length = 2 := by
    rw [List.length_take]
    omega
  obtain ⟨cs, k', hcs, hcslen, hcsmem⟩ :=
    nextGenChildren_spec g ((Testcase.sortQ tcs rules pop).take 10) tcs.length
      htop htopmem hN (ps - ((Testcase.sortQ tcs rules pop).take 2).length) k
  refine ⟨(Testcase.sortQ tcs rules pop).take 2 ++ cs, k', ?_, ?_, ?_, ?_, ?_⟩
  · rw [show Testcase.gaStep g tcs rules ps pop k =
        (Testcase.sortByFitness tcs rules pop).bind (fun spop =>
          (Testcase.nextGenChildren g (spop.take 10)
            (ps - (spop.take 2).length) k).bind (fun ck =>
              some (spop.take 2 ++ ck.1, ck.2))) from rfl,
      sortByFitness_eq tcs rules hrules pop]
    simp only [Option.some_bind]
    rw [hcs]
    rfl
  · rw [List.length_append, helite, hcslen, helite]
    omega
  · intro p hp
    rcases List.mem_append.mp hp with hmem | hmem
    · exact hspopmem p (List.mem_of_mem_take hmem)
    · exact hcsmem p hmem
  · cases hsq : Testcase.sortQ tcs rules pop with
    | nil =>
      rw [hsq] at hspoplen
      simp at hspoplen
      omega
    | cons s0 srest =>
      simp [List.take_cons]
  · intro x hx
    have hmax := sortQ_head_max tcs rules pop x hx
    cases hsq : Testcase.sortQ tcs rules pop with
    | nil =>
      rw [hsq] at hspoplen
      simp at hspoplen
      omega
    | cons s0 srest =>
      rw [hsq] at hmax
      simpa [List.take_cons] using hmax

theorem gaLoop_spec (g : RandF) (tcs : List TestCase) (rules : Finset String)
    (ps : ℕ) (hrules : rules.Nonempty) (hps : 2 ≤ ps) (hN : 2 ≤ tcs.length) :
    ∀ gens pop k, pop.length = ps → (∀ p ∈ pop, p.length = tcs.length) →
      ∃ popF k', Testcase.gaLoop g tcs rules ps gens pop k = some (popF, k') ∧
        popF.length = ps ∧ (∀ p ∈ popF, p.length = tcs.length) ∧
        (1 ≤ gens → ∀ x ∈ pop, Testcase.fitQ x tcs rules ≤
          Testcase.fitQ popF.headI tcs rules) := by
  intro gens
  induction gens with
  | zero =>
    intro pop k hpop hlen
    exact ⟨pop, k, rfl, hpop, hlen, fun h => absurd h (by omega)⟩
  | succ n ih =>
    intro pop k hpop hlen
    obtain ⟨pop1, k1, hstep, hlen1, hmem1, hhead1, hdom1⟩ :=
      gaStep_spec g tcs rules ps pop k hrules hps hN hpop hlen
    obtain ⟨popF, k', hloop, hlenF, hmemF, hdomF⟩ := ih pop1 k1 hlen1 hmem1
    refine ⟨popF, k', ?_, hlenF, hmemF, ?_⟩
    · rw [show Testcase.gaLoop g tcs rules ps (n + 1) pop k =
          (Testcase.gaStep g tcs rules ps pop k).bind
            (fun pk => Testcase.gaLoop g tcs rules ps n pk.1 pk.2) from rfl,
        hstep]
      simpa using hloop
    · intro _ x hx
      cases n with
      | zero =>
        have h1 : (some (pop1, k1) : Option (List (List ℕ) × ℕ)) =
            some (popF, k') := hloop
        injection h1 with h2
        have h3 : pop1 = popF := congrArg Prod.fst h2
        rw [← h3]
        exact hdom1 x hx
      | succ m =>
        exact le_trans (hdom1 x hx)
          (hdomF (by omega) pop1.headI hhead1)

/-- C2.  Failure semantics, amended: on a candidate pool with at least two
vectors and a non-empty rule set the optimizer never fails (for any
population size ≥ 2, any generation count, any random sequence); but there
is no guard for small pools: crossover's cut-point selection
`randint(1, len(p1) - 1)` has an empty range whenever the genome length is
at most 1, so a pool of size 0 or 1 makes the optimizer fault instead of
short-circuiting to an empty suite or returning a parent unchanged. -/
theorem genetic_algorithm_total (g : RandF) (tcs : List TestCase)
    (rules : Finset String) (ps gens : ℕ) (hrules : rules.Nonempty)
    (hps : 2 ≤ ps) (hN : 2 ≤ tcs.length) :
    (∃ ind, Testcase.genetic_algorithm g tcs rules ps gens = some ind) ∧
    (∀ g' : RandF, ∀ p1 p2 : List ℕ, ∀ k, p1.length ≤ 1 →
      crossover g' p1 p2 k = none) := by
  constructor
  · obtain ⟨popF, k', hloop, hlenF, _, _⟩ :=
      gaLoop_spec g tcs rules ps hrules hps hN gens
        (initPopulation g ps tcs.length 0).1
        (initPopulation g ps tcs.length 0).2
        (initPopulation_length g ps tcs.length 0)
        (initPopulation_mem_length g ps tcs.length 0)
    refine ⟨popF.headI, ?_⟩
    rw [show Testcase.genetic_algorithm g tcs rules ps gens =
        (Testcase.gaLoop g tcs rules ps gens
          (initPopulation g ps tcs.length 0).1
          (initPopulation g ps tcs.length 0).2).bind
          (fun pk => pk.1.head?) from rfl,
      hloop]
    simp only [Option.some_bind]
    cases hpF : popF with
    | nil =>
      rw [hpF] at hlenF
      simp at hlenF
      omega
    | cons q qs => rfl
  · intro g' p1 p2 k h
    exact crossover_none g' p1 p2 k h

/-- C2 witness: the success half on the two-vector pool (population 20,
fifty generations, the all-zero stream), and the crossover fault on a
length-one genome. -/
theorem genetic_algorithm_total_witness :
    (∃ ind, Testcase.genetic_algorithm gZero exTCs exRuleIds 20 50 = some ind) ∧
    crossover gZero [0] [1] 0 = none :=
  ⟨(genetic_algorithm_total gZero exTCs exRuleIds 20 50
      ⟨"rule-1", by decide⟩ (by omega) (by decide)).1,
    (genetic_algorithm_total gZero exTCs exRuleIds 20 50
      ⟨"rule-1", by decide⟩ (by omega) (by decide)).2 gZero [0] [1] 0
      (by decide)⟩

/-- C2 counterexample: on the empty candidate pool the optimizer does not
short-circuit to an empty suite; its genomes have length zero and the first
crossover faults, so the whole call faults. -/
theorem genetic_algorithm_empty_pool_faults :
    Testcase.genetic_algorithm gZero [] ({"rule-1"} : Finset String) 20 50 =
      none := by
  with_unfolding_all decide

/-- C4.  The convergence floor, amended: it holds for the elitist optimizer
of `testcase.py` — for every random sequence, pool of size ≥ 2, non-empty
rule set, population size ≥ 2 and at least one generation, the returned
individual's fitness is at least that of every individual of the initial
population; the non-elitist optimizer of `xacml_test_optimization.py` /
`xacml_testcase_ga.py` violates the floor
(`ga_nonelitist_floor_counterexample`). -/
theorem ga_elitist_floor (g : RandF) (tcs : List TestCase)
    (rules : Finset String) (ps gens : ℕ) (ind : List ℕ)
    (hrules : rules.Nonempty) (hps : 2 ≤ ps) (hN : 2 ≤ tcs.length)
    (hgens : 1 ≤ gens)
    (h : Testcase.genetic_algorithm g tcs rules ps gens = some ind) :
    ∀ x ∈ (initPopulation g ps tcs.length 0).1,
      Testcase.fitQ x tcs rules ≤ Testcase.fitQ ind tcs rules := by
  obtain ⟨popF, k', hloop, hlenF, _, hdom⟩ :=
    gaLoop_spec g tcs rules ps hrules hps hN gens
      (initPopulation g ps tcs.length 0).1
      (initPopulation g ps tcs.length 0).2
      (initPopulation_length g ps tcs.length 0)
      (initPopulation_mem_length g ps tcs.length 0)
  rw [show Testcase.genetic_algorithm g tcs rules ps gens =
      (Testcase.gaLoop g tcs rules ps gens
        (initPopulation g ps tcs.length 0).1
        (initPopulation g ps tcs.length 0).2).bind
        (fun pk => pk.1.head?) from rfl,
    hloop] at h
  simp only [Option.some_bind] at h
  cases hpF : popF with
  | nil =>
    rw [hpF] at hlenF
    simp at hlenF
    omega
  | cons q qs =>
    rw [hpF] at h
    have hq : ind = q := by
      have h1 : (some q : Option (List ℕ)) = some ind := h
      injection h1 with h2
      exact h2.symm
    intro x hx
    have := hdom hgens x hx
    rw [hpF] at this
    rw [hq]
    exact this

/-- C4 witness: a concrete elitist run (two-vector pool, population 20, one
generation, the all-zero stream) returns `[0, 0]`, and the floor instantiated
at the initial-population member `[0, 0]` holds. -/
theorem ga_elitist_floor_witness :
    Testcase.fitQ [0, 0] exTCs exRuleIds ≤
      Testcase.fitQ [0, 0] exTCs exRuleIds :=
  ga_elitist_floor gZero exTCs exRuleIds 20 1 [0, 0]
    ⟨"rule-1", by decide⟩ (by omega) (by decide) (by omega)
    (by with_unfolding_all decide) [0, 0] (by with_unfolding_all decide)

/-- C4 counterexample: the non-elitist optimizer (default population 10,
thirty generations) on a stream whose first generation mutates every child
to the all-zero genome returns an individual of fitness 0, strictly below
the 3/5 fitness of the best individual of generation 0. -/
theorem ga_nonelitist_floor_counterexample :
    XGa.genetic_algorithm gC4 exTCs exRuleIds 10 30 = some [0, 0] ∧
    XGa.select_best exTCs exRuleIds
      (initPopulation gC4 10 exTCs.length 0).1 = some [1, 1] ∧
    XGa.fitQ [0, 0] exTCs exRuleIds < XGa.fitQ [1, 1] exTCs exRuleIds := by
  with_unfolding_all decide

theorem fitnessX_eq (ind : List ℕ) (tcs : List TestCase)
    (rules : Finset String) (h : rules.Nonempty) :
    XGa.fitness ind tcs rules (4 / 5) (1 / 5) =
      some (XGa.fitQ ind tcs rules) := by
  have hc : rules.card ≠ 0 := Nat.pos_iff_ne_zero.mp (Finset.card_pos.mpr h)
  by_cases hsel : (XGa.selectedTCs ind tcs).isEmpty <;>
    simp [XGa.fitness, XGa.fitQ, hsel, hc]

theorem maxLoop_eq (tcs : List TestCase) (rules : Finset String)
    (h : rules.Nonempty) :
    ∀ (t : List (List ℕ)) (b : List ℕ),
      XGa.maxLoop tcs rules t (b, XGa.fitQ b tcs rules) =
        some (XGa.maxBy (fun y => XGa.fitQ y tcs rules) b t) := by
  intro t
  induction t with
  | nil =>
    intro b
    rfl
  | cons x rest ih =>
    intro b
    rw [show XGa.maxLoop tcs rules (x :: rest) (b, XGa.fitQ b tcs rules) =
        (XGa.fitness x tcs rules (4 / 5) (1 / 5)).bind (fun f =>
          XGa.maxLoop tcs rules rest
            (if XGa.fitQ b tcs rules < f then (x, f)
              else (b, XGa.fitQ b tcs rules))) from rfl,
      fitnessX_eq x tcs rules h]
    simp only [Option.some_bind]
    by_cases hc : XGa.fitQ b tcs rules < XGa.fitQ x tcs rules
    · rw [if_pos hc]
      rw [show XGa.maxBy (fun y => XGa.fitQ y tcs rules) b (x :: rest) =
          XGa.maxBy (fun y => XGa.fitQ y tcs rules)
            (if XGa.fitQ b tcs rules < XGa.fitQ x tcs rules then x else b)
            rest from rfl,
        if_pos hc]
      exact ih x
    · rw [if_neg hc]
      rw [show XGa.maxBy (fun y => XGa.fitQ y tcs rules) b (x :: rest) =
          XGa.maxBy (fun y => XGa.fitQ y tcs rules)
            (if XGa.fitQ b tcs rules < XGa.fitQ x tcs rules then x else b)
            rest from rfl,
        if_neg hc]
      exact ih b

theorem select_best_eq (tcs : List TestCase) (rules : Finset String)
    (h : rules.Nonempty) (p : List ℕ) (rest : List (List ℕ)) :
    XGa.select_best tcs rules (p :: rest) =
      some (XGa.maxBy (fun y => XGa.fitQ y tcs rules) p rest) := by
  rw [show XGa.select_best tcs rules (p :: rest) =
      (XGa.fitness p tcs rules (4 / 5) (1 / 5)).bind
        (fun f => XGa.maxLoop tcs rules rest (p, f)) from rfl,
    fitnessX_eq p tcs rules h]
  simp only [Option.some_bind]
  exact maxLoop_eq tcs rules h rest p

theorem maxBy_spec (f : List ℕ → ℚ) (b : List ℕ) (t : List (List ℕ)) :
    ∃ l1 l2, b :: t = l1 ++ XGa.maxBy f b t :: l2 ∧
      (∀ x ∈ b :: t, f x ≤ f (XGa.maxBy f b t)) ∧
      (∀ x ∈ l1, f x < f (XGa.maxBy f b t)) := by
  induction t generalizing b with
  | nil =>
    refine ⟨[], [], rfl, ?_, ?_⟩
    · intro x hx
      rcases List.mem_cons.mp hx with rfl | hx
      · exact le_refl _
      · cases hx
    · intro x hx
      cases hx
  | cons y t ih =>
    have hstep : XGa.maxBy f b (y :: t) =
        XGa.maxBy f (if f b < f y then y else b) t := rfl
    by_cases hby : f b < f y
    · rw [hstep, if_pos hby]
      obtain ⟨l1, l2, hdec, hbound, hstrict⟩ := ih y
      refine ⟨b :: l1, l2, ?_, ?_, ?_⟩
      · rw [List.cons_append, ← hdec]
      · intro x hx
        rcases List.mem_cons.mp hx with rfl | hx
        · exact le_trans (le_of_lt hby) (hbound y (List.mem_cons_self y t))
        · exact hbound x hx
      · intro x hx
        rcases List.mem_cons.mp hx with rfl | hx
        · exact lt_of_lt_of_le hby (hbound y (List.mem_cons_self y t))
        · exact hstrict x hx
    · rw [hstep, if_neg hby]
      obtain ⟨l1, l2, hdec, hbound, hstrict⟩ := ih b
      cases l1 with
      | nil =>
        simp only [List.nil_append] at hdec
        have hbm : b = XGa.maxBy f b t := (List.cons.injEq _ _ _ _).mp hdec |>.1
        have htl : t = l2 := (List.cons.injEq _ _ _ _).mp hdec |>.2
        refine ⟨[], y :: t, ?_, ?_, ?_⟩
        · rw [List.nil_append, ← hbm]
        · intro x hx
          rcases List.mem_cons.mp hx with rfl | hx
          · exact hbound x (List.mem_cons_self _ _)
          rcases List.mem_cons.mp hx with rfl | hx2
          · exact le_trans (not_lt.mp hby) (hbound b (List.mem_cons_self b t))
          · exact hbound x (List.mem_cons_of_mem b hx2)
        · intro x hx
          cases hx
      | cons z l1' =>
        simp only [List.cons_append] at hdec
        have hzb : b = z := (List.cons.injEq _ _ _ _).mp hdec |>.1
        have htl : t = l1' ++ XGa.maxBy f b t :: l2 :=
          (List.cons.injEq _ _ _ _).mp hdec |>.2
        have hbstrict : f b < f (XGa.maxBy f b t) := by
          have h5 := hstrict z (List.mem_cons_self z l1')
          rw [← hzb] at h5
          exact h5
        refine ⟨b :: y :: l1', l2, ?_, ?_, ?_⟩
        · rw [List.cons_append, List.cons_append, ← htl]
        · intro x hx
          rcases List.mem_cons.mp hx with rfl | hx
          · exact hbound x (List.mem_cons_self _ _)
          rcases List.mem_cons.mp hx with rfl | hx2
          · exact le_trans (not_lt.mp hby) (le_of_lt hbstrict)
          · exact hbound x (List.mem_cons_of_mem b hx2)
        · intro x hx
          rcases List.mem_cons.mp hx with rfl | hx
          · exact hbstrict
          rcases List.mem_cons.mp hx with rfl | hx2
          · exact lt_of_le_of_lt (not_lt.mp hby) hbstrict
          · exact hstrict x (List.mem_cons_of_mem z hx2)

theorem maxBy_mem (f : List ℕ → ℚ) (b : List ℕ) (t : List (List ℕ)) :
    XGa.maxBy f b t ∈ b :: t := by
  obtain ⟨l1, l2, hdec, _, _⟩ := maxBy_spec f b t
  rw [hdec]
  exact List.mem_append_right l1 (List.mem_cons_self _ l2)

theorem newPopulation_spec (g : RandF) (tcs : List TestCase)
    (rules : Finset String) (p : List ℕ) (rest : List (List ℕ))
    (hrules : rules.Nonempty)
    (hlen : ∀ q ∈ p :: rest, q.length = tcs.length) (hN : 2 ≤ tcs.length) :
    ∀ n k, ∃ cs k', XGa.newPopulation g tcs rules (p :: rest) n k =
        some (cs, k') ∧
      cs.length = n ∧ ∀ c ∈ cs, c.length = tcs.length := by
  have hbest := select_best_eq tcs rules hrules p rest
  have hbl : (XGa.maxBy (fun y => XGa.fitQ y tcs rules) p rest).length =
      tcs.length :=
    hlen _ (maxBy_mem (fun y => XGa.fitQ y tcs rules) p rest)
  intro n
  induction n with
  | zero =>
    intro k
    exact ⟨[], k, rfl, rfl, fun c hc => absurd hc (List.not_mem_nil c)⟩
  | succ m ih =>
    intro k
    obtain ⟨child, hx, hclen⟩ := crossover_some g
      (XGa.maxBy (fun y => XGa.fitQ y tcs rules) p rest)
      (XGa.maxBy (fun y => XGa.fitQ y tcs rules) p rest) k
      (by omega) rfl
    obtain ⟨cs, k', hrest, hcslen, hcmem⟩ :=
      ih (mutate g (1 / 10) child (k + 1)).2
    refine ⟨(mutate g (1 / 10) child (k + 1)).1 :: cs, k', ?_, ?_, ?_⟩
    · rw [show XGa.newPopulation g tcs rules (p :: rest) (m + 1) k =
          (XGa.select_best tcs rules (p :: rest)).bind (fun p1 =>
            (XGa.select_best tcs rules (p :: rest)).bind (fun p2 =>
              (crossover g p1 p2 k).bind (fun ck =>
                (XGa.newPopulation g tcs rules (p :: rest) m
                  (mutate g (1 / 10) ck.1 ck.2).2).bind (fun rk =>
                    some ((mutate g (1 / 10) ck.1 ck.2).1 :: rk.1, rk.2)))))
          from rfl,
        hbest]
      simp only [Option.some_bind]
      rw [hx]
      simp only [Option.some_bind]
      rw [hrest]
      rfl
    · simp [hcslen]
    · intro c hc
      rcases List.mem_cons.mp hc with rfl | hmem
      · rw [mutate_length, hclen, hbl]
      · exact hcmem c hmem

theorem gaLoopX_spec (g : RandF) (tcs : List TestCase) (rules : Finset String)
    (ps : ℕ) (hrules : rules.Nonempty) (hps : 1 ≤ ps) (hN : 2 ≤ tcs.length) :
    ∀ gens pop k, pop.length = ps → (∀ p ∈ pop, p.length = tcs.length) →
      ∃ popF k', XGa.gaLoop g tcs rules ps gens pop k = some (popF, k') ∧
        popF.length = ps ∧ ∀ p ∈ popF, p.length = tcs.length := by
  intro gens
  induction gens with
  | zero =>
    intro pop k hpop hlen
    exact ⟨pop, k, rfl, hpop, hlen⟩
  | succ n ih =>
    intro pop k hpop hlen
    cases pop with
    | nil =>
      simp at hpop
      omega
    | cons p rest =>
      obtain ⟨cs, k1, hnew, hcslen, hcmem⟩ :=
        newPopulation_spec g tcs rules p rest hrules hlen hN ps k
      obtain ⟨popF, k', hloop, hlenF, hmemF⟩ := ih cs k1 hcslen hcmem
      refine ⟨popF, k', ?_, hlenF, hmemF⟩
      rw [show XGa.gaLoop g tcs rules ps (n + 1) (p :: rest) k =
          (XGa.newPopulation g tcs rules (p :: rest) ps k).bind
            (fun pk => XGa.gaLoop g tcs rules ps n pk.1 pk.2) from rfl,
        hnew]
      simpa using hloop

/-- C5.  Final selection, amended: the `xacml_testcase_ga.py` /
`xacml_test_optimization.py` optimizer indeed returns the single individual
with maximal fitness among the final population, ties broken by first
occurrence (the returned individual splits the final population so that all
individuals are bounded by it and everything strictly before it is strictly
worse); the `testcase.py` variant instead returns the first element of the
final population — the elite carried over from the previous generation —
which need not be the final population's maximum
(`ga_returns_stale_elite_counterexample`). -/
theorem ga_final_select_best (g : RandF) (tcs : List TestCase)
    (rules : Finset String) (ps gens : ℕ) (hrules : rules.Nonempty)
    (hps : 1 ≤ ps) (hN : 2 ≤ tcs.length) :
    ∃ popF k ind l1 l2,
      XGa.finalPopulation g tcs rules ps gens = some (popF, k) ∧
      XGa.genetic_algorithm g tcs rules ps gens = some ind ∧
      popF = l1 ++ ind :: l2 ∧
      (∀ x ∈ popF, XGa.fitQ x tcs rules ≤ XGa.fitQ ind tcs rules) ∧
      (∀ x ∈ l1, XGa.fitQ x tcs rules < XGa.fitQ ind tcs rules) := by
  obtain ⟨popF, k', hloop, hlenF, hmemF⟩ :=
    gaLoopX_spec g tcs rules ps hrules hps hN gens
      (initPopulation g ps tcs.length 0).1
      (initPopulation g ps tcs.length 0).2
      (initPopulation_length g ps tcs.length 0)
      (initPopulation_mem_length g ps tcs.length 0)
  have hfin : XGa.finalPopulation g tcs rules ps gens = some (popF, k') := by
    rw [show XGa.finalPopulation g tcs rules ps gens =
        XGa.gaLoop g tcs rules ps gens
          (initPopulation g ps tcs.length 0).1
          (initPopulation g ps tcs.length 0).2 from rfl]
    exact hloop
  cases hpF : popF with
  | nil =>
    rw [hpF] at hlenF
    simp at hlenF
    omega
  | cons p rest =>
    obtain ⟨l1, l2, hdec, hbound, hstrict⟩ :=
      maxBy_spec (fun y => XGa.fitQ y tcs rules) p rest
    refine ⟨popF, k', XGa.maxBy (fun y => XGa.fitQ y tcs rules) p rest,
      l1, l2, hfin, ?_, ?_, ?_, hstrict⟩
    · rw [show XGa.genetic_algorithm g tcs rules ps gens =
          (XGa.finalPopulation g tcs rules ps gens).bind
            (fun pk => XGa.select_best tcs rules pk.1) from rfl,
        hfin]
      simp only [Option.some_bind]
      rw [hpF]
      exact select_best_eq tcs rules hrules p rest
    · rw [hpF]
      exact hdec
    · intro x hx
      rw [hpF] at hx
      exact hbound x (hdec ▸ hx)

/-- C5 witness: the non-elitist spec applied to the two-vector pool with
population 2 and a single generation on the all-zero stream. -/
theorem ga_final_select_best_witness :
    ∃ popF k ind l1 l2,
      XGa.finalPopulation gZero exTCs exRuleIds 2 1 = some (popF, k) ∧
      XGa.genetic_algorithm gZero exTCs exRuleIds 2 1 = some ind ∧
      popF = l1 ++ ind :: l2 ∧
      (∀ x ∈ popF, XGa.fitQ x exTCs exRuleIds ≤ XGa.fitQ ind exTCs exRuleIds) ∧
      (∀ x ∈ l1, XGa.fitQ x exTCs exRuleIds < XGa.fitQ ind exTCs exRuleIds) :=
  ga_final_select_best gZero exTCs exRuleIds 2 1
    ⟨"rule-1", by decide⟩ (by omega) (by decide)

/-- C5 counterexample: a concrete elitist (`testcase.py`) run whose final
population contains `[1, 1]` (fitness 3/5) while the optimizer returns
`[0, 0]` (fitness 0) — the first element of the final population, not its
best individual. -/
theorem ga_returns_stale_elite_counterexample :
    Testcase.genetic_algorithm gZero exTCs exRuleIds 20 1 = some [0, 0] ∧
    Testcase.gaLoop gZero exTCs exRuleIds 20 1
      (initPopulation gZero 20 exTCs.length 0).1
      (initPopulation gZero 20 exTCs.length 0).2 =
      some ([0, 0] :: [0, 0] :: List.replicate 18 [1, 1], 130) ∧
    [1, 1] ∈ [0, 0] :: [0, 0] :: List.replicate 18 [1, 1] ∧
    Testcase.fitQ [0, 0] exTCs exRuleIds < Testcase.fitQ [1, 1] exTCs exRuleIds := by
  with_unfolding_all decide
